import Mathlib

/-!
Verification of the accumulator / prover / chain-view subsystem of the
rpc-utreexo-bridge node, against its design specification.

The repository ships `src/main.rs` (process wiring: chain view, block store,
p2p node, api server, request channel, kill flag, prover thread); the
accumulator, prover loop and proof machinery live in modules that are not
part of the visible sources, so they are modelled here faithfully from the
specification text (each such definition carries a note in its doc comment).
Hashes are modelled as natural numbers and the two-child combining function
is an arbitrary parameter `f : Hash → Hash → Hash`, since every property at
stake is structural and holds for any fixed order-sensitive combiner.
-/

abbrev Hash := Nat

/-! ## The Merkle forest: incremental (binary-counter) and from-scratch roots -/

/-- Modelled from the spec: the incremental accumulator state maintained by
`add` is one optional root per height (bit of the leaf counter).  Inserting a
new subtree root at the lowest height merges equal-sized perfect subtrees
bottom-up, exactly binary-counter carry propagation. -/
def insertRoot (f : Hash → Hash → Hash) (h : Hash) : List (Option Hash) → List (Option Hash)
  | [] => [some h]
  | none :: rest => some h :: rest
  | some r :: rest => none :: insertRoot f (f r h) rest

/-- The incrementally maintained root state after a sequence of `add` calls
starting from an arbitrary state. -/
def addAllFrom (f : Hash → Hash → Hash) (st : List (Option Hash)) (ls : List Hash) :
    List (Option Hash) :=
  ls.foldl (fun s h => insertRoot f h s) st

/-- The incrementally maintained root state after a sequence of `add` calls
starting from the empty accumulator. -/
def addAll (f : Hash → Hash → Hash) (ls : List Hash) : List (Option Hash) :=
  addAllFrom f [] ls

/-- The Merkle root of a perfect subtree of height `k` over a leaf segment
(of length `2 ^ k`); internal nodes combine the two children in fixed order. -/
def treeRoot (f : Hash → Hash → Hash) : Nat → List Hash → Hash
  | 0, l => l.headD 0
  | k + 1, l => f (treeRoot f k (l.take (2 ^ k))) (treeRoot f k (l.drop (2 ^ k)))

/-- Modelled from the spec: recomputing the forest from scratch.  Heights are
scanned from `H - 1` down to `0`; whenever a perfect subtree of the current
height fits, its leaves are split off the front and hashed — this is exactly
the binary decomposition of the leaf count (largest tree first). -/
def scratchDown (f : Hash → Hash → Hash) : Nat → List Hash → List Hash
  | 0, _ => []
  | H + 1, ls =>
    if 2 ^ H ≤ ls.length then
      treeRoot f H (ls.take (2 ^ H)) :: scratchDown f H (ls.drop (2 ^ H))
    else
      scratchDown f H ls

/-- The from-scratch forest roots over the full leaf list, largest tree
first (the naive reference computation of the spec). -/
def forestRootsScratch (f : Hash → Hash → Hash) (ls : List Hash) : List Hash :=
  scratchDown f ls.length ls

/-- Reading the roots out of an incremental state, highest (largest tree)
first, skipping empty slots. -/
def rootsOfState (st : List (Option Hash)) : List Hash :=
  st.reverse.filterMap id

/-! ### Ghost segment-level state

To relate the two computations we shadow the incremental state with the leaf
segments each slot summarises: `insertSeg` performs the very same carry
propagation on segments that `insertRoot` performs on their roots. -/

def insertSeg (seg : List Hash) : List (Option (List Hash)) → List (Option (List Hash))
  | [] => [some seg]
  | none :: rest => some seg :: rest
  | some s :: rest => none :: insertSeg (s ++ seg) rest

def addAllSegFrom (st : List (Option (List Hash))) (ls : List Hash) :
    List (Option (List Hash)) :=
  ls.foldl (fun s h => insertSeg [h] s) st

/-- Concatenation of the stored segments, highest slot first. -/
def segFlatten : List (Option (List Hash)) → List Hash
  | [] => []
  | none :: rest => segFlatten rest
  | some s :: rest => segFlatten rest ++ s

/-- Hash every stored segment at its height (`k` is the height of slot 0). -/
def mapRoots (f : Hash → Hash → Hash) : Nat → List (Option (List Hash)) → List (Option Hash)
  | _, [] => []
  | k, o :: rest => o.map (treeRoot f k) :: mapRoots f (k + 1) rest

/-- Well-formedness of a segment state whose slot 0 sits at height `k`:
every populated slot holds exactly `2 ^ height` leaves. -/
def SegInv : Nat → List (Option (List Hash)) → Prop
  | _, [] => True
  | k, o :: rest => (∀ s, o = some s → s.length = 2 ^ k) ∧ SegInv (k + 1) rest

/-! ## The Accumulator: add, delete, prove, roots

Modelled from the spec (the accumulator module of the repository is not among
the visible sources; only its driver wiring in `src/main.rs` is).  The state
stores every leaf ever added, in position order; deleting a leaf blanks its
slot, so positions are never reused.  Per the spec invariant the roots always
reflect exactly the live-leaf set, with the forest shape given by the binary
decomposition of the live count (full compaction on delete). -/
structure Accumulator where
  leaves : List (Option Hash)
deriving DecidableEq

def Accumulator.empty : Accumulator := ⟨[]⟩

/-- The total count of leaves ever added (the position counter). -/
def Accumulator.numLeaves (a : Accumulator) : Nat := a.leaves.length

/-- The currently live leaves, in position order. -/
def Accumulator.liveLeaves (a : Accumulator) : List Hash := a.leaves.filterMap id

def Accumulator.liveCount (a : Accumulator) : Nat := a.liveLeaves.length

/-- Modelled from the spec: appends a new leaf and returns its position;
never fails. -/
def Accumulator.add (a : Accumulator) (h : Hash) : Accumulator × Nat :=
  (⟨a.leaves ++ [some h]⟩, a.leaves.length)

def Accumulator.addMany (a : Accumulator) (ls : List Hash) : Accumulator :=
  ls.foldl (fun s h => (s.add h).1) a

/-- The read-only root snapshot: the forest over the live leaves. -/
def Accumulator.roots (f : Hash → Hash → Hash) (a : Accumulator) : List Hash :=
  forestRootsScratch f a.liveLeaves

/-- The rank of a position among the live leaves (how many live leaves sit at
smaller positions). -/
def Accumulator.liveRank (a : Accumulator) (pos : Nat) : Nat :=
  ((a.leaves.take pos).filterMap id).length

/-- The ordered sibling hashes on the path from leaf `i` of a perfect subtree
of height `k` up to (but excluding) its root, leaf level first. -/
def siblingPath (f : Hash → Hash → Hash) : Nat → List Hash → Nat → List Hash
  | 0, _, _ => []
  | k + 1, l, i =>
    if i < 2 ^ k then
      siblingPath f k (l.take (2 ^ k)) i ++ [treeRoot f k (l.drop (2 ^ k))]
    else
      siblingPath f k (l.drop (2 ^ k)) (i - 2 ^ k) ++ [treeRoot f k (l.take (2 ^ k))]

/-- Recomputing the path: fold the sibling hashes over the leaf hash, the bits
of the in-tree index choosing the combination order at each level. -/
def computeRoot (f : Hash → Hash → Hash) : Hash → Nat → List Hash → Hash
  | h, _, [] => h
  | h, i, s :: rest => computeRoot f (if i % 2 = 0 then f h s else f s h) (i / 2) rest

/-- Locate the live leaf of rank `r` in the forest over live leaves `lv`
(scanning heights downward exactly like `scratchDown`); yields its in-tree
index, the height and root of its containing subtree, and its sibling path. -/
def proveDown (f : Hash → Hash → Hash) :
    Nat → List Hash → Nat → Option (Nat × Nat × Hash × List Hash)
  | 0, _, _ => none
  | H + 1, lv, r =>
    if 2 ^ H ≤ lv.length then
      if r < 2 ^ H then
        some (r, H, treeRoot f H (lv.take (2 ^ H)), siblingPath f H (lv.take (2 ^ H)) r)
      else proveDown f H (lv.drop (2 ^ H)) (r - 2 ^ H)
    else proveDown f H lv r

def proveLive (f : Hash → Hash → Hash) (lv : List Hash) (r : Nat) :
    Option (Nat × Nat × Hash × List Hash) :=
  proveDown f lv.length lv r

/-- A membership proof: the leaf position, its hash, and the ordered sibling
hashes from the leaf to the root of its containing subtree. -/
structure Proof where
  pos : Nat
  leafHash : Hash
  path : List Hash
deriving DecidableEq

inductive AccError where
  | ProofInvalid
  | UnknownLeaf
deriving DecidableEq

/-- Modelled from the spec: the current sibling path for a live leaf, or
`UnknownLeaf` for a position never added or already deleted. -/
def Accumulator.prove (f : Hash → Hash → Hash) (a : Accumulator) (pos : Nat) :
    Except AccError Proof :=
  match a.leaves[pos]? with
  | some (some h) =>
    match proveLive f a.liveLeaves (a.liveRank pos) with
    | some (_, _, _, path) => .ok ⟨pos, h, path⟩
    | none => .error .UnknownLeaf
  | _ => .error .UnknownLeaf

/-- Modelled from the spec: a proof is checked by recomputing the path with
the supplied siblings and comparing against the stored root of the subtree
containing the target position. -/
def Accumulator.verify (f : Hash → Hash → Hash) (a : Accumulator) (p : Proof) : Bool :=
  match a.leaves[p.pos]? with
  | some (some h) =>
    match proveLive f a.liveLeaves (a.liveRank p.pos) with
    | some (i, k, root, _) =>
      p.leafHash == h && p.path.length == k && computeRoot f p.leafHash i p.path == root
    | none => false
  | _ => false

/-- Blank the slots of every proof in the batch (the raw state change of a
delete, before proof checking). -/
def Accumulator.deleteAll (a : Accumulator) (ps : List Proof) : Accumulator :=
  ⟨ps.foldl (fun l p => l.set p.pos none) a.leaves⟩

/-- Modelled from the spec: verify every proof of the batch against the
current roots; if any fails, reject the whole batch with `ProofInvalid`
(all-or-nothing), otherwise mark all the leaves removed. -/
def Accumulator.delete (f : Hash → Hash → Hash) (a : Accumulator) (ps : List Proof) :
    Except AccError Accumulator :=
  if ps.all (a.verify f) then .ok (a.deleteAll ps) else .error .ProofInvalid

/-- The accumulator state after a `delete` call: the new state on success,
the unchanged one on failure. -/
def Accumulator.deleteResult (f : Hash → Hash → Hash) (a : Accumulator) (ps : List Proof) :
    Accumulator :=
  match a.delete f ps with
  | .ok b => b
  | .error _ => a


/-! ## Blocks, undo records, chains -/

/-- Modelled from the spec: the accumulator-relevant content of a block —
the spent outputs (each with its membership proof) and the created outputs.
Spends are applied before creates, per the spec ordering requirement. -/
structure Block where
  spends : List Proof
  creates : List Hash
deriving DecidableEq

/-- Modelled from the spec: the Undo Record of a block — the leaf positions
deleted (with the leaf hashes needed to re-add them) and the leaf hashes
added, in application order. -/
structure UndoRec where
  deleted : List (Nat × Hash)
  added : List Hash
deriving DecidableEq

def Block.undo (b : Block) : UndoRec :=
  ⟨b.spends.map (fun p => (p.pos, p.leafHash)), b.creates⟩

/-- Modelled from the spec: applying one block — delete the spends as one
batch (all proofs verified against the pre-state roots), then add the
creates; yields the new state and the block's Undo Record. -/
def Accumulator.applyBlock (f : Hash → Hash → Hash) (a : Accumulator) (b : Block) :
    Except AccError (Accumulator × UndoRec) :=
  match a.delete f b.spends with
  | .error e => .error e
  | .ok a1 => .ok (⟨a1.leaves ++ b.creates.map some⟩, b.undo)

/-- Replaying an Undo Record forward against the pre-block state: blank the
recorded positions, then append the recorded additions. -/
def Accumulator.replayUndo (a : Accumulator) (u : UndoRec) : Accumulator :=
  ⟨(u.deleted.foldl (fun l q => l.set q.1 none) a.leaves) ++ u.added.map some⟩

/-- Applying an Undo Record in reverse against the post-block state: remove
the added leaves, then re-add the deleted leaves at their old positions. -/
def Accumulator.revertUndo (a : Accumulator) (u : UndoRec) : Accumulator :=
  ⟨u.deleted.foldl (fun l q => l.set q.1 (some q.2))
    (a.leaves.take (a.leaves.length - u.added.length))⟩

def Accumulator.applyBlocks (f : Hash → Hash → Hash) (a : Accumulator) :
    List Block → Except AccError (Accumulator × List UndoRec)
  | [] => .ok (a, [])
  | b :: bs =>
    match a.applyBlock f b with
    | .error e => .error e
    | .ok (a1, u) =>
      match a1.applyBlocks f bs with
      | .error e => .error e
      | .ok (a2, us) => .ok (a2, u :: us)

/-- Modelled from the spec: reorg rollback — revert the Undo Records of the
blocks above the fork point, most recent first. -/
def Accumulator.rollback (a : Accumulator) (us : List UndoRec) : Accumulator :=
  us.foldr (fun u s => s.revertUndo u) a

/-! ## Operation sequences (for the position-monotonicity invariants) -/

inductive AccOp where
  | add (h : Hash)
  | delete (ps : List Proof)
deriving DecidableEq

def Accumulator.runOp (f : Hash → Hash → Hash) (a : Accumulator) : AccOp → Accumulator
  | .add h => (a.add h).1
  | .delete ps => a.deleteResult f ps

def Accumulator.run (f : Hash → Hash → Hash) (a : Accumulator) (ops : List AccOp) :
    Accumulator :=
  ops.foldl (fun s op => s.runOp f op) a

/-- A concrete combining function, used only to instantiate witnesses. -/
def cf : Hash → Hash → Hash := fun x y => 2 * x + 3 * y + 5

/-! ## Process wiring (src/main.rs) -/

/-- The shared objects constructed in `main` (src/main.rs), plus the
accumulator, which lives inside the prover (modelled from the spec: the
prover module is not among the visible sources). -/
inductive Resource where
  | accumulator
  | chainView
  | blockStore
  | blocksIndex
  | requestSender
  | requestReceiver
  | killFlag
deriving DecidableEq

/-- The collaborators `main` wires up (src/main.rs): the prover (the main
thread, line 126), the p2p node thread (lines 97-101), the api server thread
(lines 105-110) and the ctrl-c watcher thread (lines 118-124). -/
inductive Collab where
  | proverThread
  | p2pNode
  | apiServer
  | ctrlcWatcher
deriving DecidableEq

/-- Which resources each collaborator receives, read off src/main.rs: the
prover is built from the blocks index, the block store and the chain view
(lines 86 and 91) and is run with the request receiver and the kill flag
(line 126); the accumulator lives inside it.  The p2p node receives the
block store, the blocks index and the chain view (line 98).  The api server
receives only the request sender (line 108).  The ctrl-c watcher receives
the kill flag (lines 118-123). -/
def receives : Collab → List Resource
  | .proverThread =>
    [.blocksIndex, .blockStore, .chainView, .requestReceiver, .killFlag, .accumulator]
  | .p2pNode => [.blockStore, .blocksIndex, .chainView]
  | .apiServer => [.requestSender]
  | .ctrlcWatcher => [.killFlag]

/-- The serving collaborators of the spec (the out-of-scope servers). -/
def servingCollabs : List Collab := [.p2pNode, .apiServer]

/-! ## The prover main loop and the kill flag -/

/-- Modelled from the spec: program counter of one prover main-loop
iteration (prover::keep_up is not among the visible sources): check the kill
flag once, then fetch, apply and persist the next block. -/
inductive LoopPC where
  | check
  | fetch
  | apply
  | persist
deriving DecidableEq

structure LoopState where
  pc : LoopPC
  flag : Bool
  fetched : Nat
  applied : Nat
  persisted : Nat
  exited : Bool
deriving DecidableEq

def loopInit : LoopState := ⟨.check, false, 0, 0, 0, false⟩

/-- Modelled from the spec: small-step transitions of the prover loop,
interleaved with the ctrl-c handler setting the shared flag at any moment
(src/main.rs lines 118-124).  The flag is read exactly once per iteration,
at `check`; the fetch, apply and persist steps of an in-flight iteration run
to completion before the next check can observe the flag. -/
inductive LoopStep : LoopState → LoopState → Prop where
  | signal (s : LoopState) : LoopStep s { s with flag := true }
  | checkExit (s : LoopState) (hpc : s.pc = .check) (hf : s.flag = true)
      (hex : s.exited = false) : LoopStep s { s with exited := true }
  | checkCont (s : LoopState) (hpc : s.pc = .check) (hf : s.flag = false)
      (hex : s.exited = false) : LoopStep s { s with pc := .fetch }
  | doFetch (s : LoopState) (hpc : s.pc = .fetch) (hex : s.exited = false) :
      LoopStep s { s with pc := .apply, fetched := s.fetched + 1 }
  | doApply (s : LoopState) (hpc : s.pc = .apply) (hex : s.exited = false) :
      LoopStep s { s with pc := .persist, applied := s.applied + 1 }
  | doPersist (s : LoopState) (hpc : s.pc = .persist) (hex : s.exited = false) :
      LoopStep s { s with pc := .check, persisted := s.persisted + 1 }

inductive LoopReach : LoopState → Prop where
  | init : LoopReach loopInit
  | step (s t : LoopState) : LoopReach s → LoopStep s t → LoopReach t

/-! ## The bounded request channel (src/main.rs line 102) -/

/-- Modelled from the spec: the bounded request/response channel between the
api server and the prover; src/main.rs line 102 creates it with capacity
1024. -/
structure BoundedQueue where
  cap : Nat
  buf : List Nat
deriving DecidableEq

inductive QueueError where
  | QueueFull
deriving DecidableEq

/-- Sending fails with `QueueFull` (backpressure) instead of growing the
buffer beyond the fixed capacity. -/
def BoundedQueue.send (c : BoundedQueue) (r : Nat) : Except QueueError BoundedQueue :=
  if c.buf.length < c.cap then .ok ⟨c.cap, c.buf ++ [r]⟩ else .error .QueueFull

def BoundedQueue.recvOne (c : BoundedQueue) : BoundedQueue × Option Nat :=
  match c.buf with
  | [] => (c, none)
  | r :: rest => (⟨c.cap, rest⟩, some r)

inductive QueueOp where
  | send (r : Nat)
  | recv
deriving DecidableEq

def BoundedQueue.runOp (c : BoundedQueue) : QueueOp → BoundedQueue
  | .send r =>
    match c.send r with
    | .ok c2 => c2
    | .error _ => c
  | .recv => c.recvOne.1

def BoundedQueue.run (c : BoundedQueue) (ops : List QueueOp) : BoundedQueue :=
  ops.foldl BoundedQueue.runOp c

/-- The request channel as created in src/main.rs line 102: fixed capacity
1024, initially empty. -/
def mainRequestQueue : BoundedQueue := ⟨1024, []⟩

/-! ## The kill flag (src/main.rs lines 112-124) -/

/-- The kill flag is created holding false (src/main.rs line 112). -/
def killFlagInit : Bool := false

/-- The write sites to the kill flag anywhere in the program: the single
assignment in the ctrl-c handler stores true (src/main.rs line 122);
prover::keep_up only reads the flag (once per iteration, per the spec). -/
inductive KillFlagWrite where
  | ctrlcHandler
deriving DecidableEq

def KillFlagWrite.value : KillFlagWrite → Bool
  | .ctrlcHandler => true

/-- The flag value after a sequence of program writes. -/
def killFlagAfter (ws : List KillFlagWrite) : Bool :=
  ws.foldl (fun _ w => w.value) killFlagInit

deriving instance DecidableEq for Except

/-- The per-program-counter bookkeeping invariant of the prover loop: whole
blocks only — an iteration in flight has fetched exactly the block it is
about to apply and persist, and the loop can only be exited at the check
point, where all three counters agree. -/
def LoopInv (s : LoopState) : Prop :=
  (s.pc = .check → s.fetched = s.applied ∧ s.applied = s.persisted) ∧
    (s.pc = .fetch → s.fetched = s.applied ∧ s.applied = s.persisted) ∧
    (s.pc = .apply → s.fetched = s.applied + 1 ∧ s.applied = s.persisted) ∧
    (s.pc = .persist → s.fetched = s.applied ∧ s.applied = s.persisted + 1) ∧
    (s.exited = true → s.pc = .check)

/-! ## Theorems -/

theorem treeRoot_append (f : Hash → Hash → Hash) (k : Nat) (s t : List Hash)
    (hs : s.length = 2 ^ k) :
    treeRoot f (k + 1) (s ++ t) = f (treeRoot f k s) (treeRoot f k t) := by
  have htake : (s ++ t).take (2 ^ k) = s := by
    rw [← hs]; exact List.take_left s t
  have hdrop : (s ++ t).drop (2 ^ k) = t := by
    rw [← hs]; exact List.drop_left s t
  simp [treeRoot, htake, hdrop]

theorem mapRoots_insertSeg (f : Hash → Hash → Hash) (k : Nat)
    (st : List (Option (List Hash))) (seg : List Hash)
    (hseg : seg.length = 2 ^ k) (hinv : SegInv k st) :
    mapRoots f k (insertSeg seg st) = insertRoot f (treeRoot f k seg) (mapRoots f k st) := by
  induction st generalizing k seg with
  | nil => simp [insertSeg, mapRoots, insertRoot]
  | cons o rest ih =>
    match o with
    | none => simp [insertSeg, mapRoots, insertRoot]
    | some s =>
      have hs : s.length = 2 ^ k := hinv.1 s rfl
      have hlen : (s ++ seg).length = 2 ^ (k + 1) := by
        simp [hs, hseg, pow_succ]; ring
      have := ih (k + 1) (s ++ seg) hlen hinv.2
      simp [insertSeg, mapRoots, insertRoot, this, treeRoot_append f k s seg hs]

theorem segInv_insertSeg (k : Nat) (st : List (Option (List Hash))) (seg : List Hash)
    (hseg : seg.length = 2 ^ k) (hinv : SegInv k st) :
    SegInv k (insertSeg seg st) := by
  induction st generalizing k seg with
  | nil =>
    simp only [insertSeg, SegInv]
    refine ⟨fun s hs => ?_, trivial⟩
    cases hs; exact hseg
  | cons o rest ih =>
    match o with
    | none =>
      simp only [insertSeg, SegInv]
      exact ⟨(fun s hs => by cases hs; exact hseg), hinv.2⟩
    | some s =>
      have hs : s.length = 2 ^ k := hinv.1 s rfl
      have hlen : (s ++ seg).length = 2 ^ (k + 1) := by
        simp [hs, hseg, pow_succ]; ring
      simp only [insertSeg, SegInv]
      exact ⟨(fun t ht => nomatch ht), ih (k + 1) (s ++ seg) hlen hinv.2⟩

theorem segFlatten_insertSeg (seg : List Hash) (st : List (Option (List Hash))) :
    segFlatten (insertSeg seg st) = segFlatten st ++ seg := by
  induction st generalizing seg with
  | nil => simp [insertSeg, segFlatten]
  | cons o rest ih =>
    match o with
    | none => simp [insertSeg, segFlatten]
    | some s => simp [insertSeg, segFlatten, ih (s ++ seg)]

theorem segInv_addAllSegFrom (st : List (Option (List Hash))) (ls : List Hash)
    (hinv : SegInv 0 st) : SegInv 0 (addAllSegFrom st ls) := by
  induction ls generalizing st with
  | nil => exact hinv
  | cons h t ih =>
    exact ih (insertSeg [h] st) (segInv_insertSeg 0 st [h] (by simp) hinv)

theorem addAllFrom_eq_mapRoots (f : Hash → Hash → Hash) (st : List (Option (List Hash)))
    (ls : List Hash) (hinv : SegInv 0 st) :
    addAllFrom f (mapRoots f 0 st) ls = mapRoots f 0 (addAllSegFrom st ls) := by
  induction ls generalizing st with
  | nil => rfl
  | cons h t ih =>
    have hstep : insertRoot f h (mapRoots f 0 st) = mapRoots f 0 (insertSeg [h] st) := by
      have := mapRoots_insertSeg f 0 st [h] (by simp) hinv
      simpa [treeRoot] using this.symm
    have hinv2 : SegInv 0 (insertSeg [h] st) := segInv_insertSeg 0 st [h] (by simp) hinv
    calc addAllFrom f (mapRoots f 0 st) (h :: t)
        = addAllFrom f (insertRoot f h (mapRoots f 0 st)) t := rfl
      _ = addAllFrom f (mapRoots f 0 (insertSeg [h] st)) t := by rw [hstep]
      _ = mapRoots f 0 (addAllSegFrom (insertSeg [h] st) t) := ih (insertSeg [h] st) hinv2
      _ = mapRoots f 0 (addAllSegFrom st (h :: t)) := rfl

theorem segFlatten_addAllSegFrom (st : List (Option (List Hash))) (ls : List Hash) :
    segFlatten (addAllSegFrom st ls) = segFlatten st ++ ls := by
  induction ls generalizing st with
  | nil => simp [addAllSegFrom]
  | cons h t ih =>
    calc segFlatten (addAllSegFrom st (h :: t))
        = segFlatten (addAllSegFrom (insertSeg [h] st) t) := rfl
      _ = segFlatten (insertSeg [h] st) ++ t := ih (insertSeg [h] st)
      _ = segFlatten st ++ [h] ++ t := by rw [segFlatten_insertSeg]
      _ = segFlatten st ++ (h :: t) := by simp

theorem scratchDown_of_lt (f : Hash → Hash → Hash) (H j : Nat) (ls : List Hash)
    (h : ls.length < 2 ^ H) : scratchDown f (H + j) ls = scratchDown f H ls := by
  induction j with
  | zero => rfl
  | succ j ih =>
    have hlt : ¬ 2 ^ (H + j) ≤ ls.length := by
      have : (2 : Nat) ^ H ≤ 2 ^ (H + j) := Nat.pow_le_pow_right (by omega) (by omega)
      omega
    have : H + (j + 1) = (H + j) + 1 := rfl
    rw [this]
    simp only [scratchDown, hlt, if_false]
    exact ih

theorem scratchDown_norm (f : Hash → Hash → Hash) (H1 H2 : Nat) (ls : List Hash)
    (h1 : ls.length < 2 ^ H1) (h2 : ls.length < 2 ^ H2) :
    scratchDown f H1 ls = scratchDown f H2 ls := by
  rcases Nat.le_total H1 H2 with hle | hle
  · obtain ⟨j, rfl⟩ := Nat.le.dest hle
    exact (scratchDown_of_lt f H1 j ls h1).symm
  · obtain ⟨j, rfl⟩ := Nat.le.dest hle
    exact scratchDown_of_lt f H2 j ls h2

theorem segFlatten_length_le (k : Nat) (st : List (Option (List Hash)))
    (hinv : SegInv k st) : (segFlatten st).length + 2 ^ k ≤ 2 ^ (k + st.length) := by
  induction st generalizing k with
  | nil => simp [segFlatten]
  | cons o rest ih =>
    have hrest := ih (k + 1) hinv.2
    have hco : k + (o :: rest).length = (k + 1) + rest.length := by
      simp only [List.length_cons]; omega
    rw [hco]
    match o with
    | none =>
      have hle : (2 : Nat) ^ k ≤ 2 ^ (k + 1) := Nat.pow_le_pow_right (by omega) (by omega)
      simp only [segFlatten]
      omega
    | some s =>
      have hs : s.length = 2 ^ k := hinv.1 s rfl
      have hpow : (2 : Nat) ^ (k + 1) = 2 ^ k + 2 ^ k := by rw [pow_succ]; ring
      simp only [segFlatten, List.length_append]
      omega

theorem segFlatten_append (a b : List (Option (List Hash))) :
    segFlatten (a ++ b) = segFlatten b ++ segFlatten a := by
  induction a with
  | nil => simp [segFlatten]
  | cons o rest ih =>
    match o with
    | none => simpa [segFlatten] using ih
    | some s => simp [segFlatten, ih, List.append_assoc]

theorem mapRoots_append (f : Hash → Hash → Hash) (k : Nat)
    (a b : List (Option (List Hash))) :
    mapRoots f k (a ++ b) = mapRoots f k a ++ mapRoots f (k + a.length) b := by
  induction a generalizing k with
  | nil => simp [mapRoots]
  | cons o rest ih =>
    have hco : k + (o :: rest).length = (k + 1) + rest.length := by
      simp only [List.length_cons]; omega
    rw [hco]
    simp only [List.cons_append, mapRoots]
    rw [show rest.append b = rest ++ b from rfl, ih (k + 1)]

theorem rootsOfState_append_some (st : List (Option Hash)) (r : Hash) :
    rootsOfState (st ++ [some r]) = r :: rootsOfState st := by
  simp [rootsOfState]

theorem rootsOfState_append_none (st : List (Option Hash)) :
    rootsOfState (st ++ [none]) = rootsOfState st := by
  simp [rootsOfState]

theorem segInv_append (k : Nat) (a b : List (Option (List Hash)))
    (hinv : SegInv k (a ++ b)) : SegInv k a ∧ SegInv (k + a.length) b := by
  induction a generalizing k with
  | nil => exact ⟨trivial, by simpa using hinv⟩
  | cons o rest ih =>
    obtain ⟨h1, h2⟩ := hinv
    obtain ⟨ha, hb⟩ := ih (k + 1) h2
    refine ⟨⟨h1, ha⟩, ?_⟩
    have hco : k + (o :: rest).length = (k + 1) + rest.length := by
      simp only [List.length_cons]; omega
    rw [hco]
    exact hb

theorem scratch_segState (f : Hash → Hash → Hash) (st : List (Option (List Hash))) (k : Nat)
    (hinv : SegInv k st) :
    forestRootsScratch f (segFlatten st) = rootsOfState (mapRoots f k st) := by
  induction st using List.reverseRecOn generalizing k with
  | nil => rfl
  | append_singleton st o ih =>
    obtain ⟨hinv1, hinv2⟩ := segInv_append k st [o] hinv
    match o with
    | none =>
      have hflat : segFlatten (st ++ [none]) = segFlatten st := by
        rw [segFlatten_append]; simp [segFlatten]
      have hmap : mapRoots f k (st ++ [none]) = mapRoots f k st ++ [none] := by
        rw [mapRoots_append]; simp [mapRoots]
      rw [hflat, hmap, rootsOfState_append_none]
      exact ih k hinv1
    | some s =>
      have hs : s.length = 2 ^ (k + st.length) := hinv2.1 s rfl
      have hrle : (segFlatten st).length + 2 ^ k ≤ 2 ^ (k + st.length) :=
        segFlatten_length_le k st hinv1
      have h2k : 1 ≤ 2 ^ k := Nat.one_le_two_pow
      have hrlt : (segFlatten st).length < 2 ^ (k + st.length) := by omega
      have hflat : segFlatten (st ++ [some s]) = s ++ segFlatten st := by
        rw [segFlatten_append]; simp [segFlatten]
      have hlenapp : (s ++ segFlatten st).length = 2 ^ (k + st.length) + (segFlatten st).length := by
        simp [hs]
      have hpow : (2 : Nat) ^ (k + st.length + 1) = 2 ^ (k + st.length) + 2 ^ (k + st.length) := by
        rw [pow_succ]; ring
      have hlt1 : (s ++ segFlatten st).length < 2 ^ ((s ++ segFlatten st).length) :=
        Nat.lt_two_pow _
      have hlt2 : (s ++ segFlatten st).length < 2 ^ (k + st.length + 1) := by omega
      have htake : (s ++ segFlatten st).take (2 ^ (k + st.length)) = s := by
        rw [← hs]; exact List.take_left s _
      have hdrop : (s ++ segFlatten st).drop (2 ^ (k + st.length)) = segFlatten st := by
        rw [← hs]; exact List.drop_left s _
      have hcond : 2 ^ (k + st.length) ≤ (s ++ segFlatten st).length := by omega
      have step1 : forestRootsScratch f (s ++ segFlatten st)
          = scratchDown f (k + st.length + 1) (s ++ segFlatten st) :=
        scratchDown_norm f _ _ _ hlt1 hlt2
      have step2 : scratchDown f (k + st.length + 1) (s ++ segFlatten st)
          = treeRoot f (k + st.length) s :: scratchDown f (k + st.length) (segFlatten st) := by
        simp only [scratchDown, hcond, if_true, htake, hdrop]
      have step3 : scratchDown f (k + st.length) (segFlatten st)
          = forestRootsScratch f (segFlatten st) :=
        scratchDown_norm f _ _ _ hrlt (Nat.lt_two_pow _)
      have hmap : mapRoots f k (st ++ [some s])
          = mapRoots f k st ++ [some (treeRoot f (k + st.length) s)] := by
        rw [mapRoots_append]; simp [mapRoots]
      rw [hflat, step1, step2, step3, hmap, rootsOfState_append_some, ih k hinv1]

theorem addAll_eq_forestRootsScratch (f : Hash → Hash → Hash) (ls : List Hash) :
    rootsOfState (addAll f ls) = forestRootsScratch f ls := by
  have h1 : addAll f ls = mapRoots f 0 (addAllSegFrom [] ls) := by
    have := addAllFrom_eq_mapRoots f [] ls trivial
    simpa [addAll, mapRoots] using this
  have h2 : SegInv 0 (addAllSegFrom [] ls) := segInv_addAllSegFrom [] ls trivial
  have h3 := scratch_segState f (addAllSegFrom [] ls) 0 h2
  have h4 : segFlatten (addAllSegFrom [] ls) = ls := by
    simpa [segFlatten] using segFlatten_addAllSegFrom [] ls
  rw [h1, ← h3, h4]

theorem addMany_leaves (a : Accumulator) (ls : List Hash) :
    (a.addMany ls).leaves = a.leaves ++ ls.map some := by
  induction ls generalizing a with
  | nil => simp [Accumulator.addMany]
  | cons h t ih =>
    calc (a.addMany (h :: t)).leaves = ((a.add h).1.addMany t).leaves := rfl
      _ = (a.add h).1.leaves ++ t.map some := ih (a.add h).1
      _ = a.leaves ++ (h :: t).map some := by simp [Accumulator.add]

/-- Claim C1: for every sequence of add operations applied to an initially
empty Accumulator, the incrementally maintained roots (binary-counter merging
of equal-sized perfect subtrees, bottom-up) equal the roots obtained by
recomputing the Merkle forest from scratch over the full leaf set: no drift
between the optimised incremental computation and the naive reference. -/
theorem c1_incremental_roots_eq_scratch (f : Hash → Hash → Hash) (ls : List Hash) :
    rootsOfState (addAll f ls) = (Accumulator.empty.addMany ls).roots f := by
  rw [addAll_eq_forestRootsScratch]
  have hlv : (Accumulator.empty.addMany ls).liveLeaves = ls := by
    simp [Accumulator.liveLeaves, addMany_leaves, Accumulator.empty, List.filterMap_map]
  rw [Accumulator.roots, hlv]

/-- Claim C2: if any proof of a delete batch fails to recompute to its
stored root, `delete` returns `ProofInvalid` and the accumulator state after
the call is exactly the state before it: no element of the batch is applied
(all-or-nothing). -/
theorem c2_delete_batch_atomic (f : Hash → Hash → Hash) (a : Accumulator) (ps : List Proof)
    (hbad : ∃ p ∈ ps, a.verify f p = false) :
    a.delete f ps = .error .ProofInvalid ∧ a.deleteResult f ps = a := by
  obtain ⟨p, hmem, hfalse⟩ := hbad
  have hall : ps.all (a.verify f) = false := by
    cases hb : ps.all (a.verify f) with
    | false => rfl
    | true =>
      have := List.all_eq_true.mp hb p hmem
      rw [hfalse] at this
      cases this
  constructor
  · simp [Accumulator.delete, hall]
  · simp [Accumulator.deleteResult, Accumulator.delete, hall]

/-- Witness for claim C2: a batch of three deletion proofs against a
four-leaf accumulator, the first and third valid, the second invalid — the
call fails with `ProofInvalid` and none of the three deletions takes
effect. -/
theorem c2_delete_batch_atomic_witness :
    (Accumulator.empty.addMany [10, 11, 12, 13]).delete cf
        [⟨0, 10, [11, 68]⟩, ⟨1, 11, []⟩, ⟨2, 12, [13, 58]⟩] = .error .ProofInvalid ∧
      (Accumulator.empty.addMany [10, 11, 12, 13]).deleteResult cf
        [⟨0, 10, [11, 68]⟩, ⟨1, 11, []⟩, ⟨2, 12, [13, 58]⟩] =
        Accumulator.empty.addMany [10, 11, 12, 13] :=
  c2_delete_batch_atomic cf (Accumulator.empty.addMany [10, 11, 12, 13])
    [⟨0, 10, [11, 68]⟩, ⟨1, 11, []⟩, ⟨2, 12, [13, 58]⟩]
    ⟨⟨1, 11, []⟩, by decide, by decide⟩

theorem length_siblingPath (f : Hash → Hash → Hash) (k : Nat) (l : List Hash) (i : Nat) :
    (siblingPath f k l i).length = k := by
  induction k generalizing l i with
  | zero => rfl
  | succ k ih =>
    by_cases hi : i < 2 ^ k
    · simp [siblingPath, hi, ih]
    · simp [siblingPath, hi, ih]

theorem computeRoot_append (f : Hash → Hash → Hash) (h : Hash) (i : Nat)
    (p q : List Hash) :
    computeRoot f h i (p ++ q) = computeRoot f (computeRoot f h i p) (i / 2 ^ p.length) q := by
  induction p generalizing h i with
  | nil => simp [computeRoot]
  | cons s rest ih =>
    have hdiv : i / 2 / 2 ^ rest.length = i / 2 ^ (rest.length + 1) := by
      rw [Nat.div_div_eq_div_mul]
      congr 1
      rw [pow_succ]
      ring
    simp only [List.cons_append, List.append_eq, computeRoot, List.length_cons, ih, hdiv]

theorem computeRoot_mod (f : Hash → Hash → Hash) (h : Hash) (i : Nat) (p : List Hash) :
    computeRoot f h i p = computeRoot f h (i % 2 ^ p.length) p := by
  induction p generalizing h i with
  | nil => simp [computeRoot]
  | cons s rest ih =>
    have hb : i % 2 ^ (rest.length + 1) % 2 = i % 2 := by
      apply Nat.mod_mod_of_dvd
      exact dvd_pow_self 2 (Nat.succ_ne_zero rest.length)
    have hd : i % 2 ^ (rest.length + 1) / 2 = i / 2 % 2 ^ rest.length := by
      have : (2 : Nat) ^ (rest.length + 1) = 2 * 2 ^ rest.length := by
        rw [pow_succ]; ring
      rw [this, Nat.mod_mul_right_div_self]
    calc computeRoot f h i (s :: rest)
        = computeRoot f (if i % 2 = 0 then f h s else f s h) (i / 2) rest := rfl
      _ = computeRoot f (if i % 2 = 0 then f h s else f s h) (i / 2 % 2 ^ rest.length) rest :=
        ih _ (i / 2)
      _ = computeRoot f h (i % 2 ^ (rest.length + 1)) (s :: rest) := by
        simp only [computeRoot, List.length_cons, hb, hd]

theorem computeRoot_siblingPath (f : Hash → Hash → Hash) (k : Nat) (l : List Hash)
    (i : Nat) (h : Hash) (hlen : l.length = 2 ^ k) (hi : i < 2 ^ k)
    (hget : l[i]? = some h) :
    computeRoot f h i (siblingPath f k l i) = treeRoot f k l := by
  induction k generalizing l i h with
  | zero =>
    have : i = 0 := by omega
    subst this
    match l, hlen with
    | [x], _ =>
      simp only [List.getElem?_cons_zero, Option.some.injEq] at hget
      simp [siblingPath, computeRoot, treeRoot, hget]
  | succ k ih =>
    have hlt : (l.take (2 ^ k)).length = 2 ^ k := by
      rw [List.length_take]
      have : (2 : Nat) ^ k ≤ 2 ^ (k + 1) := Nat.pow_le_pow_right (by omega) (by omega)
      omega
    have hld : (l.drop (2 ^ k)).length = 2 ^ k := by
      rw [List.length_drop, hlen, pow_succ]
      omega
    by_cases hcase : i < 2 ^ k
    · have hpath : siblingPath f (k + 1) l i
          = siblingPath f k (l.take (2 ^ k)) i ++ [treeRoot f k (l.drop (2 ^ k))] := by
        simp [siblingPath, hcase]
      have hgt : (l.take (2 ^ k))[i]? = some h := by
        rw [List.getElem?_take]
        simp [hcase, hget]
      have hstep := ih (l.take (2 ^ k)) i h hlt hcase hgt
      rw [hpath, computeRoot_append, length_siblingPath, hstep,
        Nat.div_eq_of_lt hcase]
      simp [computeRoot, treeRoot]
    · have hi2 : i - 2 ^ k < 2 ^ k := by
        rw [pow_succ] at hi
        omega
      have hpath : siblingPath f (k + 1) l i
          = siblingPath f k (l.drop (2 ^ k)) (i - 2 ^ k) ++ [treeRoot f k (l.take (2 ^ k))] := by
        simp [siblingPath, hcase]
      have hgd : (l.drop (2 ^ k))[i - 2 ^ k]? = some h := by
        rw [List.getElem?_drop]
        have : 2 ^ k + (i - 2 ^ k) = i := by omega
        rw [this]
        exact hget
      have hstep := ih (l.drop (2 ^ k)) (i - 2 ^ k) h hld hi2 hgd
      have hadd : i - 2 ^ k + 2 ^ k = i := by omega
      have hmod : i % 2 ^ k = i - 2 ^ k := by
        calc i % 2 ^ k = (i - 2 ^ k + 2 ^ k) % 2 ^ k := by rw [hadd]
          _ = (i - 2 ^ k) % 2 ^ k := Nat.add_mod_right _ _
          _ = i - 2 ^ k := Nat.mod_eq_of_lt hi2
      have hdivk : i / 2 ^ k = 1 := by
        calc i / 2 ^ k = (i - 2 ^ k + 2 ^ k) / 2 ^ k := by rw [hadd]
          _ = (i - 2 ^ k) / 2 ^ k + 1 :=
            Nat.add_div_right _ (by positivity)
          _ = 1 := by rw [Nat.div_eq_of_lt hi2]
      have hinner : computeRoot f h i (siblingPath f k (l.drop (2 ^ k)) (i - 2 ^ k))
          = treeRoot f k (l.drop (2 ^ k)) := by
        rw [computeRoot_mod, length_siblingPath, hmod, hstep]
      rw [hpath, computeRoot_append, length_siblingPath, hinner, hdivk]
      simp [computeRoot, treeRoot]

theorem proveDown_correct (f : Hash → Hash → Hash) (H : Nat) (lv : List Hash) (r : Nat)
    (i k : Nat) (root : Hash) (path : List Hash)
    (hp : proveDown f H lv r = some (i, k, root, path)) :
    root ∈ scratchDown f H lv ∧
      ∃ seg, seg.length = 2 ^ k ∧ i < 2 ^ k ∧ root = treeRoot f k seg ∧
        path = siblingPath f k seg i ∧ seg[i]? = lv[r]? := by
  induction H generalizing lv r with
  | zero => simp [proveDown] at hp
  | succ H ih =>
    by_cases hc : 2 ^ H ≤ lv.length
    · by_cases hr : r < 2 ^ H
      · simp only [proveDown, hc, if_true, hr, Option.some.injEq, Prod.mk.injEq] at hp
        obtain ⟨h1, h2, h3, h4⟩ := hp
        subst h1; subst h2; subst h3; subst h4
        constructor
        · simp [scratchDown, hc]
        · refine ⟨lv.take (2 ^ H), ?_, hr, rfl, rfl, ?_⟩
          · rw [List.length_take]; omega
          · rw [List.getElem?_take]; simp [hr]
      · have hp2 : proveDown f H (lv.drop (2 ^ H)) (r - 2 ^ H) = some (i, k, root, path) := by
          simpa [proveDown, hc, hr] using hp
        obtain ⟨hmem, seg, hlen, hik, hroot, hpath, hget⟩ := ih (lv.drop (2 ^ H)) (r - 2 ^ H) hp2
        refine ⟨?_, seg, hlen, hik, hroot, hpath, ?_⟩
        · simp only [scratchDown, hc, if_true]
          exact List.mem_cons_of_mem _ hmem
        · rw [hget, List.getElem?_drop]
          congr 1
          omega
    · have hp2 : proveDown f H lv r = some (i, k, root, path) := by
        simpa [proveDown, hc] using hp
      obtain ⟨hmem, hrest⟩ := ih lv r hp2
      refine ⟨?_, hrest⟩
      simpa [scratchDown, hc] using hmem

theorem proveDown_isSome (f : Hash → Hash → Hash) (H : Nat) (lv : List Hash) (r : Nat)
    (hr : r < lv.length) (hH : lv.length < 2 ^ H) :
    ∃ x, proveDown f H lv r = some x := by
  induction H generalizing lv r with
  | zero =>
    have h0 : lv.length < 1 := by simpa using hH
    omega
  | succ H ih =>
    by_cases hc : 2 ^ H ≤ lv.length
    · by_cases hrH : r < 2 ^ H
      · exact ⟨(r, H, treeRoot f H (lv.take (2 ^ H)), siblingPath f H (lv.take (2 ^ H)) r),
          by simp [proveDown, hc, hrH]⟩
      · have h1 : r - 2 ^ H < (lv.drop (2 ^ H)).length := by
          rw [List.length_drop]; omega
        have h2 : (lv.drop (2 ^ H)).length < 2 ^ H := by
          rw [List.length_drop]; rw [pow_succ] at hH; omega
        obtain ⟨x, hx⟩ := ih (lv.drop (2 ^ H)) (r - 2 ^ H) h1 h2
        exact ⟨x, by simp [proveDown, hc, hrH, hx]⟩
    · obtain ⟨x, hx⟩ := ih lv r hr (by omega)
      exact ⟨x, by simp [proveDown, hc, hx]⟩

theorem filterMap_take_rank (L : List (Option Hash)) (pos : Nat) (h : Hash)
    (hpos : L[pos]? = some (some h)) :
    (L.filterMap id)[((L.take pos).filterMap id).length]? = some h := by
  induction L generalizing pos with
  | nil => simp at hpos
  | cons o rest ih =>
    match pos, hpos with
    | 0, hpos =>
      have ho : o = some h := by simpa using hpos
      subst ho
      simp [List.filterMap_cons]
    | pos + 1, hpos =>
      have hrest := ih pos (by simpa using hpos)
      match o with
      | none => simpa [List.filterMap_cons] using hrest
      | some x => simpa [List.filterMap_cons] using hrest

/-- Claim C5: for every live leaf position, `prove` returns a Proof for that
position and leaf hash whose sibling path recomputes to a root present in
`roots()`; for every position never added or already deleted, `prove` fails
with `UnknownLeaf`. -/
theorem c5_prove_live_and_unknown (f : Hash → Hash → Hash) (a : Accumulator) (pos : Nat) :
    (∀ h, a.leaves[pos]? = some (some h) →
      ∃ pr, a.prove f pos = .ok pr ∧ pr.pos = pos ∧ pr.leafHash = h ∧
        ∃ i root, root ∈ a.roots f ∧ computeRoot f h i pr.path = root) ∧
    (a.leaves[pos]? = some none ∨ a.leaves[pos]? = none →
      a.prove f pos = .error .UnknownLeaf) := by
  constructor
  · intro h hpos
    have hrank : a.liveLeaves[a.liveRank pos]? = some h :=
      filterMap_take_rank a.leaves pos h hpos
    have hrlt : a.liveRank pos < a.liveLeaves.length := by
      rcases List.getElem?_eq_some.mp hrank with ⟨hlt, _⟩
      exact hlt
    obtain ⟨⟨i, k, root, path⟩, hsome⟩ :=
      proveDown_isSome f a.liveLeaves.length a.liveLeaves (a.liveRank pos) hrlt
        (Nat.lt_two_pow _)
    obtain ⟨hmem, seg, hseglen, hik, hroot, hpath, hsegget⟩ :=
      proveDown_correct f a.liveLeaves.length a.liveLeaves (a.liveRank pos) i k root path
        hsome
    have hPL : proveLive f a.liveLeaves (a.liveRank pos) = some (i, k, root, path) := hsome
    refine ⟨⟨pos, h, path⟩, ?_, rfl, rfl, i, root, ?_, ?_⟩
    · simp [Accumulator.prove, hpos, hPL]
    · simpa [Accumulator.roots, forestRootsScratch] using hmem
    · rw [hroot, hpath]
      apply computeRoot_siblingPath f k seg i h hseglen hik
      rw [hsegget]
      exact hrank
  · intro hdead
    rcases hdead with hd | hd <;> simp [Accumulator.prove, hd]

/-- Witness for claim C5: in a four-leaf accumulator, position 1 is live and
provable against the current roots, while position 7 was never added and
yields `UnknownLeaf`. -/
theorem c5_prove_live_and_unknown_witness :
    (∃ pr, (Accumulator.empty.addMany [10, 11, 12, 13]).prove cf 1 = .ok pr ∧
      pr.pos = 1 ∧ pr.leafHash = 11 ∧
      ∃ i root, root ∈ (Accumulator.empty.addMany [10, 11, 12, 13]).roots cf ∧
        computeRoot cf 11 i pr.path = root) ∧
    (Accumulator.empty.addMany [10, 11, 12, 13]).prove cf 7 = .error .UnknownLeaf :=
  ⟨(c5_prove_live_and_unknown cf (Accumulator.empty.addMany [10, 11, 12, 13]) 1).1 11
      (by decide),
    (c5_prove_live_and_unknown cf (Accumulator.empty.addMany [10, 11, 12, 13]) 7).2
      (Or.inr (by decide))⟩

theorem foldl_set_length (v : Nat × Hash → Option Hash) (pairs : List (Nat × Hash))
    (L : List (Option Hash)) :
    (pairs.foldl (fun l q => l.set q.1 (v q)) L).length = L.length := by
  induction pairs generalizing L with
  | nil => rfl
  | cons q rest ih =>
    simp only [List.foldl_cons]
    rw [ih (L.set q.1 (v q)), List.length_set]

theorem foldl_set_comm (v : Nat × Hash → Option Hash) (pairs : List (Nat × Hash))
    (L : List (Option Hash)) (i : Nat) (w : Option Hash)
    (hni : i ∉ pairs.map Prod.fst) :
    pairs.foldl (fun l q => l.set q.1 (v q)) (L.set i w)
      = (pairs.foldl (fun l q => l.set q.1 (v q)) L).set i w := by
  induction pairs generalizing L with
  | nil => rfl
  | cons q rest ih =>
    have hq : i ≠ q.1 := by
      intro he
      exact hni (by simp [he])
    have hrest : i ∉ rest.map Prod.fst := by
      intro hm
      exact hni (by simp [hm])
    simp only [List.foldl_cons]
    rw [List.set_comm w (v q) L hq]
    exact ih (L.set q.1 (v q)) hrest

theorem foldl_set_getElem_ne (v : Nat × Hash → Option Hash) (pairs : List (Nat × Hash))
    (L : List (Option Hash)) (i : Nat) (hni : i ∉ pairs.map Prod.fst) :
    (pairs.foldl (fun l q => l.set q.1 (v q)) L)[i]? = L[i]? := by
  induction pairs generalizing L with
  | nil => rfl
  | cons q rest ih =>
    have hq : q.1 ≠ i := by
      intro he
      exact hni (by simp [he])
    have hrest : i ∉ rest.map Prod.fst := by
      intro hm
      exact hni (by simp [hm])
    simp only [List.foldl_cons]
    rw [ih (L.set q.1 (v q)) hrest, List.getElem?_set]
    simp [hq]

theorem set_getElem_self (L : List (Option Hash)) (i : Nat) (w : Option Hash)
    (h : L[i]? = some w) : L.set i w = L := by
  apply List.ext_getElem?
  intro n
  rw [List.getElem?_set]
  by_cases hni : i = n
  · subst hni
    rcases List.getElem?_eq_some.mp h with ⟨hlt, _⟩
    simp only [hlt, if_true]
    exact h.symm
  · simp [hni]

theorem foldl_set_restore (pairs : List (Nat × Hash)) (L : List (Option Hash))
    (hnd : (pairs.map Prod.fst).Nodup)
    (hall : ∀ q ∈ pairs, L[q.1]? = some (some q.2)) :
    pairs.foldl (fun l q => l.set q.1 (some q.2))
      (pairs.foldl (fun l q => l.set q.1 none) L) = L := by
  induction pairs generalizing L with
  | nil => rfl
  | cons q rest ih =>
    rw [List.map_cons] at hnd
    have hq : q.1 ∉ rest.map Prod.fst := (List.nodup_cons.mp hnd).1
    have hndr : (rest.map Prod.fst).Nodup := (List.nodup_cons.mp hnd).2
    have hallr : ∀ p ∈ rest, L[p.1]? = some (some p.2) := fun p hp =>
      hall p (List.mem_cons_of_mem q hp)
    simp only [List.foldl_cons]
    rw [foldl_set_comm (fun _ => none) rest L q.1 none hq]
    rw [List.set_set]
    rw [foldl_set_comm (fun q => some q.2) rest
      (rest.foldl (fun l q => l.set q.1 none) L) q.1 (some q.2) hq]
    rw [ih L hndr hallr]
    rw [set_getElem_self L q.1 (some q.2) (hall q (List.mem_cons_self q rest))]

theorem verify_pos_live (f : Hash → Hash → Hash) (a : Accumulator) (p : Proof)
    (hv : a.verify f p = true) :
    a.leaves[p.pos]? = some (some p.leafHash) := by
  unfold Accumulator.verify at hv
  split at hv
  next h heq =>
    split at hv
    next i k root path hPL =>
      simp only [Bool.and_eq_true, beq_iff_eq] at hv
      rw [heq, hv.1.1]
    next => cases hv
  next => cases hv

theorem delete_ok_eq (f : Hash → Hash → Hash) (a : Accumulator) (ps : List Proof)
    (b : Accumulator) (hd : a.delete f ps = .ok b) :
    ps.all (a.verify f) = true ∧ b = a.deleteAll ps := by
  unfold Accumulator.delete at hd
  split at hd
  next hall => exact ⟨hall, by cases hd; rfl⟩
  next => cases hd

theorem deleteAll_leaves_pairs (a : Accumulator) (ps : List Proof) :
    (a.deleteAll ps).leaves
      = (ps.map (fun p => (p.pos, p.leafHash))).foldl (fun l q => l.set q.1 none)
          a.leaves := by
  simp [Accumulator.deleteAll, List.foldl_map]

theorem applyBlock_undo_roundtrip (f : Hash → Hash → Hash) (a a2 : Accumulator) (b : Block)
    (u : UndoRec) (hnd : (b.spends.map Proof.pos).Nodup)
    (happ : a.applyBlock f b = .ok (a2, u)) :
    a.replayUndo u = a2 ∧ a2.revertUndo u = a := by
  unfold Accumulator.applyBlock at happ
  split at happ
  next e heq => cases happ
  next a1 heq =>
    obtain ⟨hall, ha1⟩ := delete_ok_eq f a b.spends a1 heq
    rw [Except.ok.injEq, Prod.mk.injEq] at happ
    obtain ⟨ha2, hu⟩ := happ
    subst ha2
    subst hu
    have hfst : (b.spends.map (fun p => (p.pos, p.leafHash))).map Prod.fst
        = b.spends.map Proof.pos := by
      rw [List.map_map]
      rfl
    have hndp : ((b.spends.map (fun p => (p.pos, p.leafHash))).map Prod.fst).Nodup := by
      rw [hfst]
      exact hnd
    have hallp : ∀ q ∈ b.spends.map (fun p => (p.pos, p.leafHash)),
        a.leaves[q.1]? = some (some q.2) := by
      intro q hq
      obtain ⟨p, hp, rfl⟩ := List.mem_map.mp hq
      exact verify_pos_live f a p (List.all_eq_true.mp hall p hp)
    have hD : a1.leaves
        = (b.spends.map (fun p => (p.pos, p.leafHash))).foldl
            (fun l q => l.set q.1 none) a.leaves := by
      rw [ha1]
      exact deleteAll_leaves_pairs a b.spends
    have hDlen : a1.leaves.length = a.leaves.length := by
      rw [hD]
      exact foldl_set_length (fun _ => none) _ a.leaves
    constructor
    · show Accumulator.mk _ = Accumulator.mk _
      rw [Accumulator.mk.injEq]
      show (b.undo.deleted.foldl (fun l q => l.set q.1 none) a.leaves)
          ++ b.undo.added.map some = a1.leaves ++ b.creates.map some
      rw [Block.undo, hD]
    · show Accumulator.mk _ = a
      have htk : (a1.leaves ++ b.creates.map some).take
          ((a1.leaves ++ b.creates.map some).length - b.undo.added.length)
          = a1.leaves := by
        have hlen2 : (a1.leaves ++ b.creates.map some).length - b.undo.added.length
            = a1.leaves.length := by
          simp [Block.undo]
        rw [hlen2]
        exact List.take_left a1.leaves _
      show Accumulator.mk (b.undo.deleted.foldl (fun l q => l.set q.1 (some q.2))
        ((a1.leaves ++ b.creates.map some).take
          ((a1.leaves ++ b.creates.map some).length - b.undo.added.length))) = a
      rw [htk, Block.undo, hD]
      show Accumulator.mk ((b.spends.map fun p => (p.pos, p.leafHash)).foldl
        (fun l q => l.set q.1 (some q.2))
        ((b.spends.map fun p => (p.pos, p.leafHash)).foldl
          (fun l q => l.set q.1 none) a.leaves)) = a
      rw [foldl_set_restore _ a.leaves hndp hallp]

/-- Claim C3: for every accumulator state and every block applied to it
successfully, replaying the block's Undo Record forward against the
pre-block state reproduces the post-block state, and applying the Undo
Record in reverse against the post-block state restores the pre-block state
bit-identically (hence same roots and same live-leaf count). -/
theorem c3_undo_roundtrip (f : Hash → Hash → Hash) (a a2 : Accumulator) (b : Block)
    (u : UndoRec) (hnd : (b.spends.map Proof.pos).Nodup)
    (happ : a.applyBlock f b = .ok (a2, u)) :
    a.replayUndo u = a2 ∧ a2.revertUndo u = a :=
  applyBlock_undo_roundtrip f a a2 b u hnd happ

/-- Witness for claim C3: a four-leaf accumulator, a block spending position
1 (with a valid proof) and creating two outputs; the recorded Undo Record
replays forward to the post-state and reverts it back to the original
state. -/
theorem c3_undo_roundtrip_witness :
    (Accumulator.empty.addMany [10, 11, 12, 13]).replayUndo ⟨[(1, 11)], [20, 21]⟩ =
        ⟨[some 10, none, some 12, some 13, some 20, some 21]⟩ ∧
      Accumulator.revertUndo ⟨[some 10, none, some 12, some 13, some 20, some 21]⟩
          ⟨[(1, 11)], [20, 21]⟩ = Accumulator.empty.addMany [10, 11, 12, 13] :=
  c3_undo_roundtrip cf (Accumulator.empty.addMany [10, 11, 12, 13])
    ⟨[some 10, none, some 12, some 13, some 20, some 21]⟩
    ⟨[⟨1, 11, [10, 68]⟩], [20, 21]⟩ ⟨[(1, 11)], [20, 21]⟩ (by decide) (by decide)

theorem applyBlocks_append_ok (f : Hash → Hash → Hash) (a a1 a2 : Accumulator)
    (xs ys : List Block) (us vs : List UndoRec)
    (h1 : a.applyBlocks f xs = .ok (a1, us)) (h2 : a1.applyBlocks f ys = .ok (a2, vs)) :
    a.applyBlocks f (xs ++ ys) = .ok (a2, us ++ vs) := by
  induction xs generalizing a us with
  | nil =>
    rw [Accumulator.applyBlocks, Except.ok.injEq, Prod.mk.injEq] at h1
    obtain ⟨ha, hu⟩ := h1
    subst ha
    subst hu
    simpa using h2
  | cons b bs ih =>
    rw [Accumulator.applyBlocks] at h1
    rw [List.cons_append, Accumulator.applyBlocks]
    split at h1
    next e heq => cases h1
    next ab u heq =>
      split at h1
      next e heq2 => cases h1
      next am um heq2 =>
        rw [Except.ok.injEq, Prod.mk.injEq] at h1
        obtain ⟨ham, hum⟩ := h1
        subst ham
        subst hum
        rw [ih ab um heq2]
        rfl

theorem rollback_applyBlocks (f : Hash → Hash → Hash) (a a2 : Accumulator)
    (bs : List Block) (us : List UndoRec)
    (hnd : ∀ b ∈ bs, (b.spends.map Proof.pos).Nodup)
    (happ : a.applyBlocks f bs = .ok (a2, us)) :
    a2.rollback us = a := by
  induction bs generalizing a us with
  | nil =>
    rw [Accumulator.applyBlocks, Except.ok.injEq, Prod.mk.injEq] at happ
    obtain ⟨ha, hu⟩ := happ
    subst ha
    subst hu
    rfl
  | cons b bs ih =>
    rw [Accumulator.applyBlocks] at happ
    split at happ
    next e heq => cases happ
    next a1 u heq =>
      split at happ
      next e heq2 => cases happ
      next am um heq2 =>
        rw [Except.ok.injEq, Prod.mk.injEq] at happ
        obtain ⟨ham, hum⟩ := happ
        subst ham
        subst hum
        have hrest : am.rollback um = a1 :=
          ih a1 um (fun x hx => hnd x (List.mem_cons_of_mem b hx)) heq2
        have hone := applyBlock_undo_roundtrip f a a1 b u (hnd b (List.mem_cons_self b bs)) heq
        show (am.rollback um).revertUndo u = a
        rw [hrest]
        exact hone.2

/-- Claim C4: after processing chain A and learning of a heavier branch B
forking above some common prefix, the reorg handling — roll back the blocks
above the fork point via their Undo Records (tip first), then apply B's
blocks forward — leaves the accumulator exactly in the state that direct
sequential replay of the common prefix followed by B's blocks would
produce. -/
theorem c4_reorg_replay (f : Hash → Hash → Hash) (a0 af sA : Accumulator)
    (common sufA sufB : List Block) (u0 uA : List UndoRec)
    (hnd : ∀ b ∈ sufA, (b.spends.map Proof.pos).Nodup)
    (hpre : a0.applyBlocks f common = .ok (af, u0))
    (hA : af.applyBlocks f sufA = .ok (sA, uA)) :
    sA.rollback uA = af ∧
      (sA.rollback uA).applyBlocks f sufB = af.applyBlocks f sufB ∧
      (∀ sB uB, af.applyBlocks f sufB = .ok (sB, uB) →
        a0.applyBlocks f (common ++ sufB) = .ok (sB, u0 ++ uB)) := by
  have hroll : sA.rollback uA = af := rollback_applyBlocks f af sA sufA uA hnd hA
  refine ⟨hroll, by rw [hroll], ?_⟩
  intro sB uB hB
  exact applyBlocks_append_ok f a0 af sB common sufB u0 uB hpre hB

/-- Witness for claim C4: chain A with six blocks (heights 0-5), branch B
diverging at height 3; rolling back A's two post-fork blocks via their Undo
Records restores the fork-point state, and applying B's blocks from there
agrees with direct replay of the common prefix followed by B. -/
theorem c4_reorg_replay_witness :
    Accumulator.rollback ⟨[some 10, none, some 12, some 13, some 14, some 15, some 16]⟩
        [⟨[(1, 11)], [15]⟩, ⟨[], [16]⟩] =
        ⟨[some 10, some 11, some 12, some 13, some 14]⟩ ∧
      (Accumulator.rollback ⟨[some 10, none, some 12, some 13, some 14, some 15, some 16]⟩
          [⟨[(1, 11)], [15]⟩, ⟨[], [16]⟩]).applyBlocks cf
          [⟨[], [20]⟩, ⟨[⟨0, 10, [11, 68]⟩], [21]⟩, ⟨[], [22]⟩] =
        Accumulator.applyBlocks cf ⟨[some 10, some 11, some 12, some 13, some 14]⟩
          [⟨[], [20]⟩, ⟨[⟨0, 10, [11, 68]⟩], [21]⟩, ⟨[], [22]⟩] :=
  ⟨(c4_reorg_replay cf Accumulator.empty
      ⟨[some 10, some 11, some 12, some 13, some 14]⟩
      ⟨[some 10, none, some 12, some 13, some 14, some 15, some 16]⟩
      [⟨[], [10, 11]⟩, ⟨[], [12, 13]⟩, ⟨[], []⟩, ⟨[], [14]⟩]
      [⟨[⟨1, 11, [10, 68]⟩], [15]⟩, ⟨[], [16]⟩]
      [⟨[], [20]⟩, ⟨[⟨0, 10, [11, 68]⟩], [21]⟩, ⟨[], [22]⟩]
      [⟨[], [10, 11]⟩, ⟨[], [12, 13]⟩, ⟨[], []⟩, ⟨[], [14]⟩]
      [⟨[(1, 11)], [15]⟩, ⟨[], [16]⟩]
      (by decide) (by decide) (by decide)).1,
    (c4_reorg_replay cf Accumulator.empty
      ⟨[some 10, some 11, some 12, some 13, some 14]⟩
      ⟨[some 10, none, some 12, some 13, some 14, some 15, some 16]⟩
      [⟨[], [10, 11]⟩, ⟨[], [12, 13]⟩, ⟨[], []⟩, ⟨[], [14]⟩]
      [⟨[⟨1, 11, [10, 68]⟩], [15]⟩, ⟨[], [16]⟩]
      [⟨[], [20]⟩, ⟨[⟨0, 10, [11, 68]⟩], [21]⟩, ⟨[], [22]⟩]
      [⟨[], [10, 11]⟩, ⟨[], [12, 13]⟩, ⟨[], []⟩, ⟨[], [14]⟩]
      [⟨[(1, 11)], [15]⟩, ⟨[], [16]⟩]
      (by decide) (by decide) (by decide)).2.1⟩

theorem foldl_setNone_entry (ps : List Proof) (L : List (Option Hash)) (i : Nat) :
    (ps.foldl (fun l p => l.set p.pos none) L)[i]? = L[i]? ∨
      (ps.foldl (fun l p => l.set p.pos none) L)[i]? = some none := by
  induction ps generalizing L with
  | nil => exact Or.inl rfl
  | cons p rest ih =>
    simp only [List.foldl_cons]
    rcases ih (L.set p.pos none) with hcase | hcase
    · rw [hcase, List.getElem?_set]
      by_cases hpi : p.pos = i
      · subst hpi
        by_cases hlt : p.pos < L.length
        · rw [if_pos rfl, if_pos hlt]
          exact Or.inr rfl
        · rw [if_pos rfl, if_neg hlt]
          left
          rw [List.getElem?_eq_none (by omega)]
      · simp [hpi]
    · exact Or.inr hcase

theorem deleteResult_cases (f : Hash → Hash → Hash) (a : Accumulator) (ps : List Proof) :
    a.deleteResult f ps = a ∨ a.deleteResult f ps = a.deleteAll ps := by
  rw [Accumulator.deleteResult]
  split
  next b hb =>
    obtain ⟨_, hbe⟩ := delete_ok_eq f a ps b hb
    exact Or.inr hbe
  next => exact Or.inl rfl

theorem deleteAll_numLeaves (a : Accumulator) (ps : List Proof) :
    (a.deleteAll ps).numLeaves = a.numLeaves := by
  show (a.deleteAll ps).leaves.length = a.leaves.length
  rw [deleteAll_leaves_pairs]
  exact foldl_set_length (fun _ => none) _ a.leaves

theorem runOp_numLeaves_le (f : Hash → Hash → Hash) (a : Accumulator) (op : AccOp) :
    a.numLeaves ≤ (a.runOp f op).numLeaves := by
  match op with
  | .add h =>
    show a.numLeaves ≤ (a.leaves ++ [some h]).length
    rw [List.length_append]
    exact Nat.le_add_right _ _
  | .delete ps =>
    show a.numLeaves ≤ (a.deleteResult f ps).numLeaves
    rcases deleteResult_cases f a ps with hc | hc
    · rw [hc]
    · rw [hc, deleteAll_numLeaves]

theorem runOp_entry (f : Hash → Hash → Hash) (a : Accumulator) (op : AccOp) (i : Nat)
    (hi : i < a.numLeaves) :
    (a.runOp f op).leaves[i]? = a.leaves[i]? ∨ (a.runOp f op).leaves[i]? = some none := by
  match op with
  | .add h =>
    left
    show (a.leaves ++ [some h])[i]? = a.leaves[i]?
    rw [List.getElem?_append]
    have hi2 : i < a.leaves.length := hi
    rw [if_pos hi2]
  | .delete ps =>
    have hrop : a.runOp f (.delete ps) = a.deleteResult f ps := rfl
    rw [hrop]
    rcases deleteResult_cases f a ps with hc | hc
    · rw [hc]
      exact Or.inl rfl
    · rw [hc]
      exact foldl_setNone_entry ps a.leaves i

theorem run_numLeaves_le (f : Hash → Hash → Hash) (a : Accumulator) (ops : List AccOp) :
    a.numLeaves ≤ (a.run f ops).numLeaves := by
  induction ops generalizing a with
  | nil => exact Nat.le_refl _
  | cons op rest ih =>
    exact Nat.le_trans (runOp_numLeaves_le f a op) (ih (a.runOp f op))

theorem run_entry (f : Hash → Hash → Hash) (a : Accumulator) (ops : List AccOp) (i : Nat)
    (hi : i < a.numLeaves) :
    (a.run f ops).leaves[i]? = a.leaves[i]? ∨ (a.run f ops).leaves[i]? = some none := by
  induction ops generalizing a with
  | nil => exact Or.inl rfl
  | cons op rest ih =>
    have hi2 : i < (a.runOp f op).numLeaves :=
      Nat.lt_of_lt_of_le hi (runOp_numLeaves_le f a op)
    have hrun : a.run f (op :: rest) = (a.runOp f op).run f rest := rfl
    rcases ih (a.runOp f op) hi2 with h2 | h2
    · rcases runOp_entry f a op i hi with h1 | h1
      · exact Or.inl (by rw [hrun, h2, h1])
      · exact Or.inr (by rw [hrun, h2, h1])
    · exact Or.inr (by rw [hrun, h2])

/-- Claim C6: positions are assigned by the monotonic ever-added counter
(each `add` returns the current counter and increments it by one, so
positions start at 0 and strictly increase), the counter never decreases
under any sequence of add and delete operations, and a position is never
reassigned: across any operation sequence an existing slot either keeps its
original leaf or becomes deleted, never holds a different leaf. -/
theorem c6_positions_monotonic (f : Hash → Hash → Hash) (a : Accumulator)
    (ops : List AccOp) (h : Hash) :
    (a.add h).2 = a.numLeaves ∧
      (a.add h).1.numLeaves = a.numLeaves + 1 ∧
      a.numLeaves ≤ (a.run f ops).numLeaves ∧
      (∀ pos, pos < a.numLeaves →
        (a.run f ops).leaves[pos]? = a.leaves[pos]? ∨
          (a.run f ops).leaves[pos]? = some none) :=
  ⟨rfl, by simp [Accumulator.add, Accumulator.numLeaves],
    run_numLeaves_le f a ops, fun pos hpos => run_entry f a ops pos hpos⟩

/-- Witness for claim C6: a two-leaf accumulator runs a delete of position 0
followed by an add; slot 0 is afterwards either its original leaf or
deleted — never a different leaf. -/
theorem c6_positions_monotonic_witness :
    ((Accumulator.empty.addMany [10, 11]).run cf
          [.delete [⟨0, 10, [11]⟩], .add 30]).leaves[0]? =
        (Accumulator.empty.addMany [10, 11]).leaves[0]? ∨
      ((Accumulator.empty.addMany [10, 11]).run cf
          [.delete [⟨0, 10, [11]⟩], .add 30]).leaves[0]? = some none :=
  (c6_positions_monotonic cf (Accumulator.empty.addMany [10, 11])
    [.delete [⟨0, 10, [11]⟩], .add 30] 99).2.2.2 0 (by decide)

/-- Counterexample to claim C7 as stated: in src/main.rs the chain view is
wrapped in an Arc and handed directly to the p2p node thread (line 98), so
the Chain View is not owned exclusively by the prover thread and is queried
by a serving collaborator without going through the request queue. -/
theorem c7_chainview_shared_counterexample :
    Resource.chainView ∈ receives Collab.p2pNode := by decide

/-- Claim C7 (amended): the in-memory Accumulator is owned exclusively by
the prover thread — no other collaborator receives it — and the api server
reaches the prover only through the request-queue sender; the Chain View,
however, is shared directly (via Arc) with the p2p node. -/
theorem c7_accumulator_exclusive (c : Collab) (hc : c ≠ Collab.proverThread) :
    Resource.accumulator ∉ receives c ∧
      receives Collab.apiServer = [Resource.requestSender] ∧
      Resource.chainView ∈ receives Collab.p2pNode := by
  refine ⟨?_, rfl, by decide⟩
  cases c with
  | proverThread => exact absurd rfl hc
  | p2pNode => decide
  | apiServer => decide
  | ctrlcWatcher => decide

/-- Witness for the amended claim C7, at the p2p node. -/
theorem c7_accumulator_exclusive_witness :
    Resource.accumulator ∉ receives Collab.p2pNode ∧
      receives Collab.apiServer = [Resource.requestSender] ∧
      Resource.chainView ∈ receives Collab.p2pNode :=
  c7_accumulator_exclusive Collab.p2pNode (by decide)

theorem loopReach_inv (s : LoopState) (hs : LoopReach s) : LoopInv s := by
  induction hs with
  | init =>
    dsimp only [LoopInv, loopInit]
    refine ⟨fun _ => ⟨rfl, rfl⟩, fun h => absurd h (by decide), fun h => absurd h (by decide),
      fun h => absurd h (by decide), fun _ => rfl⟩
  | step s t hr hstep ih =>
    obtain ⟨hchk, hft, hap, hps, hto⟩ := ih
    cases hstep with
    | signal => exact ⟨hchk, hft, hap, hps, hto⟩
    | checkExit hpc hf hex =>
      dsimp only [LoopInv]
      refine ⟨fun _ => hchk hpc, fun h => ?_, fun h => ?_, fun h => ?_, fun _ => hpc⟩
      · rw [hpc] at h
        exact absurd h (by decide)
      · rw [hpc] at h
        exact absurd h (by decide)
      · rw [hpc] at h
        exact absurd h (by decide)
    | checkCont hpc hf hex =>
      dsimp only [LoopInv]
      refine ⟨fun h => absurd h (by decide), fun _ => hchk hpc,
        fun h => absurd h (by decide), fun h => absurd h (by decide), fun h => ?_⟩
      rw [hex] at h
      exact absurd h (by decide)
    | doFetch hpc hex =>
      have heq := hft hpc
      dsimp only [LoopInv]
      refine ⟨fun h => absurd h (by decide), fun h => absurd h (by decide),
        fun _ => ⟨by omega, heq.2⟩, fun h => absurd h (by decide), fun h => ?_⟩
      rw [hex] at h
      exact absurd h (by decide)
    | doApply hpc hex =>
      have heq := hap hpc
      dsimp only [LoopInv]
      refine ⟨fun h => absurd h (by decide), fun h => absurd h (by decide),
        fun h => absurd h (by decide), fun _ => ⟨by omega, by omega⟩, fun h => ?_⟩
      rw [hex] at h
      exact absurd h (by decide)
    | doPersist hpc hex =>
      have heq := hps hpc
      dsimp only [LoopInv]
      refine ⟨fun _ => ⟨heq.1, by omega⟩, fun h => absurd h (by decide),
        fun h => absurd h (by decide), fun h => absurd h (by decide), fun _ => rfl⟩

/-- Claim C8: the prover loop checks the shared shutdown flag exactly once
per iteration (the `check` step of the loop machine), and whenever the loop
has exited, the in-flight iteration's fetch, apply and persist steps have
all completed: in every reachable exited state the three step counters
agree, so no block is left partially applied or partially persisted. -/
theorem c8_no_partial_iteration (s : LoopState) (hs : LoopReach s)
    (hex : s.exited = true) :
    s.pc = .check ∧ s.fetched = s.applied ∧ s.applied = s.persisted := by
  obtain ⟨hchk, _, _, _, hto⟩ := loopReach_inv s hs
  exact ⟨hto hex, hchk (hto hex)⟩

/-- Witness for claim C8: the state reached by receiving the ctrl-c signal
and then observing it at the check point satisfies the no-partial-work
guarantee. -/
theorem c8_no_partial_iteration_witness :
    (⟨.check, true, 0, 0, 0, true⟩ : LoopState).pc = .check ∧
      (⟨.check, true, 0, 0, 0, true⟩ : LoopState).fetched =
        (⟨.check, true, 0, 0, 0, true⟩ : LoopState).applied ∧
      (⟨.check, true, 0, 0, 0, true⟩ : LoopState).applied =
        (⟨.check, true, 0, 0, 0, true⟩ : LoopState).persisted :=
  c8_no_partial_iteration ⟨.check, true, 0, 0, 0, true⟩
    (LoopReach.step _ _
      (LoopReach.step _ _ LoopReach.init (LoopStep.signal loopInit))
      (LoopStep.checkExit ⟨.check, true, 0, 0, 0, false⟩ rfl rfl rfl))
    rfl

theorem queue_send_cases (c : BoundedQueue) (r : Nat) :
    c.send r = .ok ⟨c.cap, c.buf ++ [r]⟩ ∧ c.buf.length < c.cap ∨
      c.send r = .error .QueueFull ∧ c.cap ≤ c.buf.length := by
  rw [BoundedQueue.send]
  by_cases hlt : c.buf.length < c.cap
  · exact Or.inl ⟨by rw [if_pos hlt], hlt⟩
  · exact Or.inr ⟨by rw [if_neg hlt], by omega⟩

theorem queue_runOp_cap (c : BoundedQueue) (op : QueueOp) : (c.runOp op).cap = c.cap := by
  match op with
  | .send r =>
    rcases queue_send_cases c r with ⟨hs, _⟩ | ⟨hs, _⟩
    · rw [BoundedQueue.runOp, hs]
    · rw [BoundedQueue.runOp, hs]
  | .recv =>
    match c with
    | ⟨cap, []⟩ => rfl
    | ⟨cap, r :: rest⟩ => rfl

theorem queue_runOp_len (c : BoundedQueue) (op : QueueOp)
    (hle : c.buf.length ≤ c.cap) : (c.runOp op).buf.length ≤ c.cap := by
  match op with
  | .send r =>
    rcases queue_send_cases c r with ⟨hs, hlt⟩ | ⟨hs, _⟩
    · rw [BoundedQueue.runOp, hs]
      simpa using hlt
    · rw [BoundedQueue.runOp, hs]
      exact hle
  | .recv =>
    match c, hle with
    | ⟨cap, []⟩, hle => exact hle
    | ⟨cap, r :: rest⟩, hle =>
      simp only [List.length_cons] at hle
      show rest.length ≤ cap
      omega

theorem queue_run_bound (c : BoundedQueue) (ops : List QueueOp)
    (hle : c.buf.length ≤ c.cap) :
    (c.run ops).buf.length ≤ c.cap ∧ (c.run ops).cap = c.cap := by
  induction ops generalizing c with
  | nil => exact ⟨hle, rfl⟩
  | cons op rest ih =>
    have hstep := queue_runOp_len c op hle
    have hcap := queue_runOp_cap c op
    have hrun : c.run (op :: rest) = (c.runOp op).run rest := rfl
    obtain ⟨h1, h2⟩ := ih (c.runOp op) (by rw [hcap]; exact hstep)
    rw [hrun]
    exact ⟨by rw [hcap] at h1; exact h1, by rw [h2, hcap]⟩

/-- Claim C9: requests reach the prover over the channel of fixed capacity
1024 created in src/main.rs line 102; across any sequence of sends and
receives the number of buffered pending requests never exceeds that
capacity, the capacity never changes, and a send against a full channel
fails with `QueueFull` instead of growing the buffer. -/
theorem c9_bounded_channel (ops : List QueueOp) (c : BoundedQueue) (r : Nat) :
    (mainRequestQueue.run ops).buf.length ≤ 1024 ∧
      (mainRequestQueue.run ops).cap = 1024 ∧
      (c.buf.length = c.cap → c.send r = .error .QueueFull) := by
  obtain ⟨h1, h2⟩ := queue_run_bound mainRequestQueue ops (by simp [mainRequestQueue])
  refine ⟨h1, h2, fun hfull => ?_⟩
  rw [BoundedQueue.send, if_neg (by omega)]

/-- Witness for claim C9: a concrete full channel of capacity 2 rejects a
send with `QueueFull`. -/
theorem c9_bounded_channel_witness :
    (⟨2, [5, 6]⟩ : BoundedQueue).send 7 = .error .QueueFull :=
  (c9_bounded_channel [] ⟨2, [5, 6]⟩ 7).2.2 rfl

theorem killFlag_mono_aux (b : Bool) (ws : List KillFlagWrite) (hb : b = true) :
    ws.foldl (fun _ w => w.value) b = true := by
  induction ws generalizing b with
  | nil => exact hb
  | cons w rest ih => exact ih w.value (by cases w; rfl)

/-- Claim C10: the kill flag is created holding false, the only write to it
anywhere in the program (the ctrl-c handler, src/main.rs line 122) stores
true, and the flag is monotonic: once some write has set it, every later
read observes true — shutdown cannot be revoked. -/
theorem c10_kill_flag_monotonic (ws ws2 : List KillFlagWrite) (w : KillFlagWrite) :
    killFlagAfter [] = false ∧
      w.value = true ∧
      (killFlagAfter ws = true → killFlagAfter (ws ++ ws2) = true) := by
  refine ⟨rfl, by cases w; rfl, fun h => ?_⟩
  rw [killFlagAfter, List.foldl_append]
  exact killFlag_mono_aux _ ws2 h

/-- Witness for claim C10: after the ctrl-c handler has run, any further
reads (an empty suffix of writes) still observe true. -/
theorem c10_kill_flag_monotonic_witness :
    killFlagAfter ([.ctrlcHandler] ++ []) = true :=
  (c10_kill_flag_monotonic [.ctrlcHandler] [] .ctrlcHandler).2.2 rfl
